import Mathlib

/-!
Verification development for the DWB local planner core
(`dwb_local_planner/src/dwb_local_planner.cpp`).

The source file is shallowly embedded here: C++ doubles are modelled as
rationals (`ℚ`), `std::vector` as `List`, exceptions as `Except`, and the
planner's mutable members as an explicit state record that is threaded
through the operations.  External collaborators (the trajectory generator,
the critics, the goal checker, the TF provider) are abstracted as function
parameters, exactly as the spec treats them (interfaces only).
-/

set_option autoImplicit false

namespace DWB

/-- `geometry_msgs::Pose2D`: a planar pose `{x, y, theta}`. -/
structure Pose2D where
  x : ℚ
  y : ℚ
  theta : ℚ
deriving DecidableEq, Repr

/-- Default pose (all fields zero), the value of a default-constructed
`geometry_msgs::Pose2D`. -/
def pose0 : Pose2D := ⟨0, 0, 0⟩

/-- Message header: named reference frame plus a time stamp. -/
structure Header where
  frame_id : String
  stamp : ℚ
deriving DecidableEq, Repr

/-- `nav_2d_msgs::Pose2DStamped`. -/
structure Pose2DStamped where
  header : Header
  pose : Pose2D
deriving DecidableEq, Repr

/-- `nav_2d_msgs::Twist2D`. -/
structure Twist2D where
  vx : ℚ
  vy : ℚ
  omega : ℚ
deriving DecidableEq, Repr

/-- `nav_2d_msgs::Path2D`: header plus ordered poses. -/
structure Path2D where
  header : Header
  poses : List Pose2D
deriving DecidableEq, Repr

/-- `getSquareDistance` (dwb_local_planner.cpp lines 544-549):
`x_diff*x_diff + y_diff*y_diff`. -/
def getSquareDistance (pose_a pose_b : Pose2D) : ℚ :=
  (pose_a.x - pose_b.x) * (pose_a.x - pose_b.x) +
    (pose_a.y - pose_b.y) * (pose_a.y - pose_b.y)

/-! ### Path segmenter (`DWBLocalPlanner::setPlan`, lines 233-302) -/

/-- The literal `1e-10` threshold of the in-place-rotation test
(line 260 and line 283). -/
def segEps : ℚ := 1 / 10 ^ 10

/-- The dot product `d` of lines 250-258 / 272-281: the vector from `p0`'s
position to `p1`'s position, dotted with the heading vector
`(cos p0.theta, sin p0.theta)`.  `cosF`/`sinF` stand for the library
`cos`/`sin` functions, kept abstract (the embedding is over rationals). -/
def dotProd (cosF sinF : ℚ → ℚ) (p0 p1 : Pose2D) : ℚ :=
  (p1.x - p0.x) * cosF p0.theta + (p1.y - p0.y) * sinF p0.theta

/-- The inner `while` of `setPlan` (lines 269-298): extend the current
segment while the transition from the segment's last pose (`last`) to the
next pose of the remaining path has the same `(backwards, onlyRotation)`
classification as the segment's first transition; on a direction change,
re-insert the segment's last pose at the front of the remaining path and
stop.  The segment built so far is carried in reverse order (`accRev`),
with `last` its most recent pose; the returned pair is
(finished segment, remaining path). -/
def extendSegment (cosF sinF : ℚ → ℚ) (bw rot : Bool) :
    Pose2D → List Pose2D → List Pose2D → List Pose2D × List Pose2D
  | last, accRev, [] => ((last :: accRev).reverse, [])
  | last, accRev, p :: rest =>
    let d := dotProd cosF sinF last p
    if (decide (d < 0) == bw) && (decide (d * d < segEps) == rot) then
      extendSegment cosF sinF bw rot p (last :: accRev) rest
    else
      ((last :: accRev).reverse, last :: p :: rest)

/-- The outer `while (copy.poses.size() > 1)` of `setPlan` (lines 233-302),
written with explicit fuel so that the function is structurally recursive
(each outer iteration shortens the remaining path by at least one pose, so
`fuel = length of the path` suffices; see `splitPathAux_join`).  Each
iteration removes the first two poses into a fresh segment, classifies the
first transition, extends the segment via `extendSegment`, and records it. -/
def splitPathAux (cosF sinF : ℚ → ℚ) : Nat → List Pose2D → List (List Pose2D)
  | 0, _ => []
  | _ + 1, [] => []
  | _ + 1, [_] => []
  | fuel + 1, p0 :: p1 :: rest =>
    let d := dotProd cosF sinF p0 p1
    let r := extendSegment cosF sinF (decide (d < 0)) (decide (d * d < segEps)) p1 [p0] rest
    r.1 :: splitPathAux cosF sinF fuel r.2

/-- The path-splitting loop of `setPlan` on a pose list. -/
def splitPath (cosF sinF : ℚ → ℚ) (l : List Pose2D) : List (List Pose2D) :=
  splitPathAux cosF sinF l.length l

/-- Re-concatenation of segments described by the spec: keep the first
segment whole and drop the first (duplicated overlap) pose of every later
segment. -/
def joinSegments : List (List Pose2D) → List Pose2D
  | [] => []
  | s :: rest => s ++ (rest.map List.tail).flatten

/-! ### Segment/goal state machine (`isGoalReached` lines 141-184, `setPlan`
lines 195-327, `setGoalPose` lines 186-193) -/

/-- The planner's mutable plan/goal members.  `PS` is the (abstract) joint
internal state of the plugins (trajectory generator, goal checker,
critics); `resetPlugins` is modelled as an abstract function on it. -/
structure GoalState (PS : Type) where
  global_plan : Path2D
  global_plan_segments : List Path2D
  goal_pose : Pose2DStamped
  intermediate_goal_pose : Pose2DStamped
  plugins : PS
deriving DecidableEq, Repr

/-- Overwrite a stamped pose's time stamp (`x.header.stamp = t`). -/
def updStamp (p : Pose2DStamped) (t : ℚ) : Pose2DStamped :=
  { p with header := { p.header with stamp := t } }

/-- Lines 149-151: update the stamps of `goal_pose_` and
`intermediate_goal_pose_` to the current pose's stamp. -/
def stampGoals {PS : Type} (st : GoalState PS) (t : ℚ) : GoalState PS :=
  { st with goal_pose := updStamp st.goal_pose t,
            intermediate_goal_pose := updStamp st.intermediate_goal_pose t }

/-- `DWBLocalPlanner::isGoalReached` (lines 141-184).  `tfL` stands for
`transformPoseToLocal` and `checker` for the external
`goal_checker_->isGoalReached` predicate; `resetPS` is the plugin reset.
Returns the boolean result paired with the updated planner state. -/
def isGoalReached {PS : Type} (tfL : Pose2DStamped → Pose2D)
    (checker : Pose2D → Pose2D → Twist2D → Bool) (resetPS : PS → PS)
    (st : GoalState PS) (pose : Pose2DStamped) (velocity : Twist2D) :
    Bool × GoalState PS :=
  if st.goal_pose.header.frame_id = "" then
    (false, st)
  else
    let st1 := stampGoals st pose.header.stamp
    let ret := checker (tfL pose) (tfL st1.intermediate_goal_pose) velocity
    if ret then
      match st1.global_plan_segments with
      | [] => (true, st1)
      | seg :: rest =>
        (false,
          { st1 with
            global_plan := seg,
            global_plan_segments := rest,
            intermediate_goal_pose := ⟨seg.header, seg.poses.getLastD pose0⟩,
            plugins := resetPS st1.plugins })
    else (false, st1)

/-- `DWBLocalPlanner::setPlan` (lines 195-327): split the path into
segments when `split_path` is set (otherwise the whole path is the sole
segment), activate the first segment as the global plan, queue the rest,
set the intermediate goal to the active segment's last pose, and reset the
plugins.  An empty segment list (a path with fewer than two poses under
splitting) indexes out of bounds in the C++ (`global_plan_segments_[0]`,
undefined behaviour); it is modelled as leaving the state unchanged and is
outside every claim's precondition. -/
def setPlan {PS : Type} (cosF sinF : ℚ → ℚ) (split_path : Bool)
    (path : Path2D) (st : GoalState PS) (resetPS : PS → PS) : GoalState PS :=
  let segs : List Path2D :=
    if split_path then
      (splitPath cosF sinF path.poses).map (fun ps => ⟨path.header, ps⟩)
    else [path]
  match segs with
  | [] => st
  | g :: rest =>
    { st with
      global_plan := g,
      global_plan_segments := rest,
      intermediate_goal_pose := ⟨g.header, g.poses.getLastD pose0⟩,
      plugins := resetPS st.plugins }

/-! ### Critic chain scorer and candidate evaluation loop
(`scoreTrajectory` lines 512-542, `coreScoringAlgorithm` lines 436-510) -/

/-- One critic, as this core sees it: a configured name, a scale, and the
external `scoreTrajectory` method, which either yields a raw score or
throws `IllegalTrajectoryException` carrying (critic name, reason). -/
structure Critic (T : Type) where
  name : String
  scale : ℚ
  score : T → Except (String × String) ℚ

/-- `dwb_msgs::CriticScore` `{name, scale, raw_score}`; message fields
default to `0`. -/
structure CriticScore where
  name : String
  scale : ℚ
  raw_score : ℚ
deriving DecidableEq, Repr

/-- `dwb_msgs::TrajectoryScore`: the candidate, the per-critic scores, and
the accumulated total (message default `0`). -/
structure TrajectoryScore (T : Type) where
  traj : T
  scores : List CriticScore
  total : ℚ
deriving DecidableEq, Repr

/-- Modelled from the spec: the `IllegalTrajectoryTracker` implementation
(`illegal_trajectory_tracker.h/.cpp`) is not part of this source file.
Per spec sections 3 and 4.4 it keeps counters of total trajectories seen
and total illegal ones, plus a map from (critic name, rejection reason) to
occurrence count preserving first-seen insertion order. -/
structure IllegalTrajectoryTracker where
  seen_count : Nat
  illegal_count : Nat
  counts : List ((String × String) × Nat)
deriving DecidableEq, Repr

/-- Modelled from the spec: record one legal trajectory. -/
def IllegalTrajectoryTracker.addLegalTrajectory
    (tk : IllegalTrajectoryTracker) : IllegalTrajectoryTracker :=
  { tk with seen_count := tk.seen_count + 1 }

/-- Bump the count of a (critic name, reason) key, preserving first-seen
insertion order. -/
def bumpCount (key : String × String) :
    List ((String × String) × Nat) → List ((String × String) × Nat)
  | [] => [(key, 1)]
  | (k, n) :: rest =>
    if k = key then (k, n + 1) :: rest else (k, n) :: bumpCount key rest

/-- Modelled from the spec: record one illegal trajectory under its
(critic name, reason) key. -/
def IllegalTrajectoryTracker.addIllegalTrajectory
    (tk : IllegalTrajectoryTracker) (e : String × String) :
    IllegalTrajectoryTracker :=
  { tk with seen_count := tk.seen_count + 1,
            illegal_count := tk.illegal_count + 1,
            counts := bumpCount e tk.counts }

/-- The critic loop of `DWBLocalPlanner::scoreTrajectory` (lines 518-539),
with the partial `TrajectoryScore` as explicit accumulator.  A critic with
scale exactly `0` records a `CriticScore` with the default raw score and
is skipped; otherwise the raw score is computed, recorded, and
`raw * scale` added to the total; if short-circuiting is on, a current
best exists (`best_score > 0`) and the running total already exceeds it,
scoring stops early.  A critic throwing `IllegalTrajectoryException`
aborts scoring of this candidate. -/
def scoreTrajectoryGo {T : Type} (shortCircuit : Bool) (bestScore : ℚ)
    (traj : T) :
    List (Critic T) → TrajectoryScore T →
    Except (String × String) (TrajectoryScore T)
  | [], acc => .ok acc
  | c :: cs, acc =>
    if c.scale = 0 then
      scoreTrajectoryGo shortCircuit bestScore traj cs
        { acc with scores := acc.scores ++ [⟨c.name, c.scale, 0⟩] }
    else
      match c.score traj with
      | .error e => .error e
      | .ok raw =>
        let acc' : TrajectoryScore T :=
          { acc with scores := acc.scores ++ [⟨c.name, c.scale, raw⟩],
                     total := acc.total + raw * c.scale }
        if shortCircuit ∧ 0 < bestScore ∧ bestScore < acc'.total then
          .ok acc'
        else scoreTrajectoryGo shortCircuit bestScore traj cs acc'

/-- `DWBLocalPlanner::scoreTrajectory` (lines 512-542). -/
def scoreTrajectory {T : Type} (shortCircuit : Bool)
    (critics : List (Critic T)) (traj : T) (best_score : ℚ) :
    Except (String × String) (TrajectoryScore T) :=
  scoreTrajectoryGo shortCircuit best_score traj critics ⟨traj, [], 0⟩

/-- The generator-driven candidate loop of `coreScoringAlgorithm`
(lines 447-494).  The external generator's candidate stream is the list
`trajs`; `best`/`worst` are updated on a legal score exactly as lines
461-476 (overwrite when the held total is still negative or the new score
compares strictly better / strictly worse); an illegal candidate is
recorded in the tracker and discarded. -/
def coreLoop {T : Type} (shortCircuit : Bool) (critics : List (Critic T)) :
    List T → TrajectoryScore T → TrajectoryScore T →
    IllegalTrajectoryTracker →
    TrajectoryScore T × TrajectoryScore T × IllegalTrajectoryTracker
  | [], best, worst, tk => (best, worst, tk)
  | t :: rest, best, worst, tk =>
    match scoreTrajectory shortCircuit critics t best.total with
    | .ok score =>
      let tk' := tk.addLegalTrajectory
      let best' :=
        if best.total < 0 ∨ score.total < best.total then score else best
      let worst' :=
        if worst.total < 0 ∨ worst.total < score.total then score else worst
      coreLoop shortCircuit critics rest best' worst' tk'
    | .error e =>
      coreLoop shortCircuit critics rest best worst
        (tk.addIllegalTrajectory e)

/-- The sentinel-initialized `best`/`worst` of lines 442-444: a
default-constructed `TrajectoryScore` with `total` set to `-1`. -/
def initScore {T : Type} [Inhabited T] : TrajectoryScore T :=
  ⟨default, [], -1⟩

/-- `DWBLocalPlanner::coreScoringAlgorithm` (lines 436-510): run the
candidate loop from the sentinels and a fresh tracker; if the final best
total is still negative, throw `NoLegalTrajectoriesException` carrying the
tracker, else return the best. -/
def coreScoringAlgorithm {T : Type} [Inhabited T] (shortCircuit : Bool)
    (critics : List (Critic T)) (trajs : List T) :
    Except IllegalTrajectoryTracker (TrajectoryScore T) :=
  let r := coreLoop shortCircuit critics trajs initScore initScore ⟨0, 0, []⟩
  if r.1.total < 0 then .error r.2.2 else .ok r.1

/-- Boolean success test for `Except`. -/
def isOkE {ε α : Type} : Except ε α → Bool
  | .ok _ => true
  | .error _ => false

/-! ### Plan transformer (`transformGlobalPlan` lines 551-635) -/

/-- Line 570: `dist_threshold = max(width, height) * resolution / 2`. -/
def distThreshold (wd ht rs : ℚ) : ℚ := max wd ht * rs / 2

/-- The windowing `for` loop of `transformGlobalPlan` (lines 575-596), with
the transformed poses accumulated in `acc`: a pose farther (squared) than
`sqT` from the robot is skipped while nothing has been included yet, and
otherwise is included and ends the walk; a pose within the threshold is
included and the walk continues.  `tfL` is `transformPoseToLocal`. -/
def windowLoop (tfL : Pose2D → Pose2D) (robot : Pose2D) (sqT : ℚ) :
    List Pose2D → List Pose2D → List Pose2D
  | [], acc => acc
  | p :: rest, acc =>
    if sqT < getSquareDistance robot p then
      if acc.isEmpty then windowLoop tfL robot sqT rest acc
      else acc ++ [tfL p]
    else windowLoop tfL robot sqT rest (acc ++ [tfL p])

/-- The prune `while` loop of `transformGlobalPlan` (lines 611-626): erase
the front pose of both the transformed and the stored plan in lockstep
until the transformed plan is exhausted or its front pose is within
(squared) `sqPrune` of the robot's costmap-frame pose. -/
def pruneLoop (robotCm : Pose2D) (sqPrune : ℚ) :
    List Pose2D → List Pose2D → List Pose2D × List Pose2D
  | [], global => ([], global)
  | w :: rest, global =>
    if getSquareDistance robotCm w < sqPrune then (w :: rest, global)
    else pruneLoop robotCm sqPrune rest global.tail

/-- `DWBLocalPlanner::transformGlobalPlan` (lines 551-635) on the stored
plan's poses.  `robotPlan`/`robotCm` are the robot pose resolved in the
plan's and the costmap's frame (the TF lookups are external and modelled
as already-resolved inputs).  Returns the thrown-or-returned transformed
plan paired with the (possibly pruned) stored plan that persists in the
planner state. -/
def transformGlobalPlan (tfL : Pose2D → Pose2D) (robotPlan robotCm : Pose2D)
    (wd ht rs : ℚ) (prune_plan : Bool) (prune_distance : ℚ)
    (plan : List Pose2D) : Except String (List Pose2D) × List Pose2D :=
  if plan = [] then (.error "Received plan with zero length", plan)
  else
    let sqT := distThreshold wd ht rs * distThreshold wd ht rs
    let tp := windowLoop tfL robotPlan sqT plan []
    let pr :=
      if prune_plan then
        pruneLoop robotCm (prune_distance * prune_distance) tp plan
      else (tp, plan)
    if pr.1 = [] then (.error "Resulting plan has 0 poses in it.", pr.2)
    else (.ok pr.1, pr.2)

/-! ### Spec-side characterizations and concrete witness data -/

/-- Concrete stand-ins for the trigonometric functions used by witnesses:
they agree with `cos`/`sin` at the only heading the witness scenarios
query, `theta = 0`. -/
def cosW : ℚ → ℚ := fun _ => 1

/-- See `cosW`. -/
def sinW : ℚ → ℚ := fun _ => 0

/-- A concrete planner state used by witness instantiations. -/
def wState : GoalState Unit :=
  ⟨⟨⟨"map", 0⟩, []⟩, [], ⟨⟨"map", 0⟩, pose0⟩, ⟨⟨"map", 0⟩, pose0⟩, ()⟩

/-- Concrete segment for the C3 witness. -/
def segW3 : Path2D := ⟨⟨"map", 5⟩, [⟨1,1,0⟩, ⟨2,2,0⟩]⟩

/-- Concrete planner state for the C3 witness: goal set, one queued
segment. -/
def stW3 : GoalState Nat :=
  ⟨⟨⟨"map", 0⟩, [pose0]⟩, [segW3], ⟨⟨"map", 0⟩, ⟨2,2,0⟩⟩,
    ⟨⟨"map", 0⟩, pose0⟩, 0⟩

/-- Concrete no-goal state for the C9 witness. -/
def stW9 : GoalState Nat :=
  ⟨⟨⟨"map", 0⟩, [pose0]⟩, [segW3], ⟨⟨"", 0⟩, pose0⟩, ⟨⟨"", 0⟩, pose0⟩, 4⟩

/-- A plan pose is out of the transform window when its squared distance
to the robot (in the plan's frame) exceeds the squared threshold
(line 578). -/
def outOfRange (robot : Pose2D) (sqT : ℚ) (p : Pose2D) : Bool :=
  decide (sqT < getSquareDistance robot p)

/-- The claim's description of the windowing pass, as its own definition:
skip the leading out-of-range poses, include the in-range run that
follows, and include the first out-of-range pose after it (if any), all
transformed to the local frame. -/
def specWindow (tfL : Pose2D → Pose2D) (robot : Pose2D) (sqT : ℚ)
    (plan : List Pose2D) : List Pose2D :=
  let rest := plan.dropWhile (outOfRange robot sqT)
  ((rest.takeWhile fun p => ! outOfRange robot sqT p) ++
    (rest.dropWhile fun p => ! outOfRange robot sqT p).take 1).map tfL

/-- Spec-side definition, following the spec's words for C1: with
short-circuit disabled a candidate's `total` is "the exact sum of
`raw_score*scale` over the critics with non-zero scale, in critic-list
order" (a critic may instead reject the trajectory, propagated as the
error). -/
def specTotalSum {T : Type} (t : T) :
    List (Critic T) → ℚ → Except (String × String) ℚ
  | [], acc => .ok acc
  | c :: cs, acc =>
    if c.scale = 0 then specTotalSum t cs acc
    else
      match c.score t with
      | .error e => .error e
      | .ok r => specTotalSum t cs (acc + r * c.scale)

/-- Concrete critics for the C1 witness: one weighted critic and one
disabled (zero-scale) critic, all contributions non-negative. -/
def wCritics : List (Critic Unit) :=
  [⟨"a", 2, fun _ => .ok 3⟩, ⟨"b", 0, fun _ => .ok 7⟩]

/-- A critic returning a negative raw score; the scenario refuting the
as-stated claims C4 and C5. -/
def negCritic : Critic Unit := ⟨"neg", 1, fun _ => .ok (-5)⟩

/-- A critic rejecting every candidate, for the C5 witness. -/
def rejCritic : Critic Unit :=
  ⟨"rej", 1, fun _ => .error ("rej", "always illegal")⟩

/-! ## Lemmas about the path segmenter -/

/-- Everything the re-join proof needs about one run of the inner segment
loop: the produced segment extends `accRev.reverse ++ [last]`; segment and
(tail of the) remaining path concatenate back to the input; the remaining
path is empty or has at least two poses and starts with the segment's last
pose (the duplicated cut pose); the remaining path grew by at most the
re-inserted pose. -/
lemma extendSegment_spec (c s : ℚ → ℚ) (bw rot : Bool) :
    ∀ (l : List Pose2D) (last : Pose2D) (accRev : List Pose2D),
    (∃ u, (extendSegment c s bw rot last accRev l).1 =
        accRev.reverse ++ last :: u) ∧
    accRev.reverse ++ last :: l =
      (extendSegment c s bw rot last accRev l).1 ++
        ((extendSegment c s bw rot last accRev l).2).tail ∧
    ((extendSegment c s bw rot last accRev l).2 = [] ∨
      ∃ q qs, (extendSegment c s bw rot last accRev l).2 = q :: qs ∧
        qs ≠ [] ∧
        (extendSegment c s bw rot last accRev l).1.getLast? = some q) ∧
    (extendSegment c s bw rot last accRev l).2.length ≤ l.length + 1 := by
  intro l
  induction l with
  | nil =>
    intro last accRev
    refine ⟨⟨[], by simp [extendSegment]⟩, by simp [extendSegment], .inl (by simp [extendSegment]), by simp [extendSegment]⟩
  | cons p rest ih =>
    intro last accRev
    by_cases hcond :
        ((decide (dotProd c s last p < 0) == bw) &&
          (decide (dotProd c s last p * dotProd c s last p < segEps) == rot)) = true
    · have hunf : extendSegment c s bw rot last accRev (p :: rest) =
          extendSegment c s bw rot p (last :: accRev) rest := by
        simp only [extendSegment]
        rw [if_pos hcond]
      obtain ⟨⟨u, hu⟩, hcat, hcopy, hlen⟩ := ih p (last :: accRev)
      rw [hunf]
      refine ⟨⟨p :: u, ?_⟩, ?_, hcopy, by simp only [List.length_cons]; omega⟩
      · rw [hu]; simp
      · rw [← hcat]; simp
    · have hunf : extendSegment c s bw rot last accRev (p :: rest) =
          ((last :: accRev).reverse, last :: p :: rest) := by
        simp only [extendSegment]
        rw [if_neg hcond]
    -- the cut branch: segment closed, cut pose re-inserted
      rw [hunf]
      refine ⟨⟨[], by simp⟩, by simp, .inr ⟨last, p :: rest, rfl, by simp, ?_⟩, by simp⟩
      simp [List.getLast?_reverse]

/-- The splitting loop maps the empty path to no segments, whatever the
fuel. -/
lemma splitPathAux_nil (c s : ℚ → ℚ) (fuel : Nat) :
    splitPathAux c s fuel [] = [] := by
  cases fuel <;> rfl

/-- With enough fuel (the input's length suffices) the splitting loop on a
path of at least two poses yields a non-empty segment list whose first
segment starts at the path's first pose, and re-joining the segments while
dropping each later segment's first pose reproduces the path. -/
lemma splitPathAux_join (c s : ℚ → ℚ) :
    ∀ (fuel : Nat) (l : List Pose2D), 2 ≤ l.length → l.length ≤ fuel →
    ∃ seg segs, splitPathAux c s fuel l = seg :: segs ∧
      seg.head? = l.head? ∧ joinSegments (seg :: segs) = l := by
  intro fuel
  induction fuel with
  | zero => intro l h2 h0; omega
  | succ fuel ih =>
    intro l h2 hle
    match l with
    | [] => simp at h2
    | [_] => simp at h2
    | p0 :: p1 :: rest =>
      obtain ⟨⟨u, hu⟩, hcat, hcopy, hlen⟩ :=
        extendSegment_spec c s
          (decide (dotProd c s p0 p1 < 0))
          (decide (dotProd c s p0 p1 * dotProd c s p0 p1 < segEps))
          rest p1 [p0]
      set r := extendSegment c s
          (decide (dotProd c s p0 p1 < 0))
          (decide (dotProd c s p0 p1 * dotProd c s p0 p1 < segEps))
          p1 [p0] rest with hr
      have hunf : splitPathAux c s (fuel + 1) (p0 :: p1 :: rest) =
          r.1 :: splitPathAux c s fuel r.2 := by
        simp only [splitPathAux, hr]
      rcases hcopy with hnil | ⟨q, qs, hq, hqs, hlast⟩
      · refine ⟨r.1, [], ?_, ?_, ?_⟩
        · rw [hunf, hnil, splitPathAux_nil]
        · rw [hu]; simp
        · have := hcat
          rw [hnil] at this
          simp only [joinSegments]
          simp at this ⊢
          exact this.symm
      · have hlen2 : 2 ≤ r.2.length := by
          rw [hq]
          cases qs with
          | nil => exact absurd rfl hqs
          | cons _ _ => simp only [List.length_cons]; omega
        have hlenfuel : r.2.length ≤ fuel := by
          simp only [List.length_cons] at hle
          omega
        obtain ⟨seg2, segs2, hsplit2, hhead2, hjoin2⟩ := ih r.2 hlen2 hlenfuel
        refine ⟨r.1, seg2 :: segs2, ?_, ?_, ?_⟩
        · rw [hunf, hsplit2]
        · rw [hu]; simp
        · obtain ⟨seg2', hseg2⟩ : ∃ t, seg2 = q :: t := by
            rw [hq] at hhead2
            cases seg2 with
            | nil => simp at hhead2
            | cons a t =>
              simp at hhead2
              exact ⟨t, by rw [hhead2]⟩
          have hqs_eq : seg2' ++ ((segs2.map List.tail).flatten) = qs := by
            have := hjoin2
            simp only [joinSegments, hseg2, hq] at this
            simpa using this
          simp only [joinSegments, List.map_cons, List.flatten_cons, hseg2]
          have : p0 :: p1 :: rest = r.1 ++ qs := by
            have h := hcat
            rw [hq] at h
            simpa using h
          rw [this, hqs_eq.symm]
          simp

/-- Claim C2: for every input path with at least 2 poses, when
`split_path` is enabled, `setPlan` produces a sequence of segments (the
activated first segment followed by the queued ones) such that
concatenating the segments while dropping the first pose of every segment
after the first reproduces the original path exactly. -/
theorem setPlan_segments_rejoin {PS : Type} (cosF sinF : ℚ → ℚ)
    (path : Path2D) (st : GoalState PS) (resetPS : PS → PS)
    (h2 : 2 ≤ path.poses.length) :
    joinSegments
      ((setPlan cosF sinF true path st resetPS).global_plan.poses ::
        ((setPlan cosF sinF true path st resetPS).global_plan_segments.map
          Path2D.poses)) = path.poses := by
  obtain ⟨seg, segs, hsplit, _, hjoin⟩ :=
    splitPathAux_join cosF sinF path.poses.length path.poses h2 le_rfl
  have hsp : splitPath cosF sinF path.poses = seg :: segs := hsplit
  simp only [setPlan, if_true, hsp, List.map_cons]
  simpa [List.map_map, Function.comp_def] using hjoin

/-- Witness for `setPlan_segments_rejoin` on a concrete two-pose path. -/
theorem setPlan_segments_rejoin_w :
    joinSegments
      ((setPlan cosW sinW true ⟨⟨"map", 0⟩, [⟨0,0,0⟩, ⟨1,0,0⟩]⟩ wState id).global_plan.poses ::
        ((setPlan cosW sinW true ⟨⟨"map", 0⟩, [⟨0,0,0⟩, ⟨1,0,0⟩]⟩ wState id).global_plan_segments.map
          Path2D.poses)) = [⟨0,0,0⟩, ⟨1,0,0⟩] :=
  setPlan_segments_rejoin cosW sinW ⟨⟨"map", 0⟩, [⟨0,0,0⟩, ⟨1,0,0⟩]⟩ wState id
    (by norm_num)

/-- Claim C8: on the path `[(0,0,0),(1,0,0),(2,0,0),(2,1,1.57)]` with
splitting enabled, `setPlan`'s splitting loop produces exactly the forward
segment `[(0,0,0),(1,0,0),(2,0,0)]` followed by a segment starting
`[(2,0,0),(2,1,1.57)]`, the last transition having dot product `d` with
`d*d < 1e-10` (classified as in-place rotation).  Only the values of
`cos`/`sin` at the headings traversed (all `0`) matter. -/
theorem splitPath_scenario (cosF sinF : ℚ → ℚ)
    (hc : cosF 0 = 1) (hs : sinF 0 = 0) :
    splitPath cosF sinF [⟨0,0,0⟩, ⟨1,0,0⟩, ⟨2,0,0⟩, ⟨2,1,157/100⟩]
      = [[⟨0,0,0⟩, ⟨1,0,0⟩, ⟨2,0,0⟩], [⟨2,0,0⟩, ⟨2,1,157/100⟩]]
    ∧ dotProd cosF sinF ⟨2,0,0⟩ ⟨2,1,157/100⟩ *
        dotProd cosF sinF ⟨2,0,0⟩ ⟨2,1,157/100⟩ < segEps := by
  constructor
  · norm_num [splitPath, splitPathAux, extendSegment, dotProd, segEps, hc, hs]
  · norm_num [dotProd, segEps, hc, hs]

/-- Witness for `splitPath_scenario` with concrete heading functions. -/
theorem splitPath_scenario_w :
    splitPath cosW sinW [⟨0,0,0⟩, ⟨1,0,0⟩, ⟨2,0,0⟩, ⟨2,1,157/100⟩]
      = [[⟨0,0,0⟩, ⟨1,0,0⟩, ⟨2,0,0⟩], [⟨2,0,0⟩, ⟨2,1,157/100⟩]]
    ∧ dotProd cosW sinW ⟨2,0,0⟩ ⟨2,1,157/100⟩ *
        dotProd cosW sinW ⟨2,0,0⟩ ⟨2,1,157/100⟩ < segEps :=
  splitPath_scenario cosW sinW rfl rfl

/-! ## The segment/goal state machine claims -/

/-- Claim C3: with a goal set, when the external goal-reached predicate
reports reached: an empty segment queue yields `true` (only the goal
stamps updated); a non-empty queue yields `false`, pops exactly the front
segment into the active global plan, sets the intermediate goal pose to
that segment's header and last pose, and hands the new (committed) state's
plugins through the reset. -/
theorem isGoalReached_reached_cases {PS : Type} (tfL : Pose2DStamped → Pose2D)
    (checker : Pose2D → Pose2D → Twist2D → Bool) (resetPS : PS → PS)
    (st : GoalState PS) (pose : Pose2DStamped) (velocity : Twist2D)
    (hgoal : ¬ st.goal_pose.header.frame_id = "")
    (hreached : checker (tfL pose)
      (tfL (updStamp st.intermediate_goal_pose pose.header.stamp)) velocity
        = true) :
    (st.global_plan_segments = [] →
      isGoalReached tfL checker resetPS st pose velocity
        = (true, stampGoals st pose.header.stamp)) ∧
    (∀ seg rest, st.global_plan_segments = seg :: rest →
      isGoalReached tfL checker resetPS st pose velocity
        = (false,
            { stampGoals st pose.header.stamp with
              global_plan := seg,
              global_plan_segments := rest,
              intermediate_goal_pose := ⟨seg.header, seg.poses.getLastD pose0⟩,
              plugins := resetPS st.plugins })) := by
  constructor
  · intro hseg
    simp [isGoalReached, hgoal, stampGoals, hreached, hseg]
  · intro seg rest hseg
    simp [isGoalReached, hgoal, stampGoals, hreached, hseg]

/-- Witness for `isGoalReached_reached_cases`: the non-empty-queue branch
at a concrete state. -/
theorem isGoalReached_reached_cases_w :
    isGoalReached (fun p => p.pose) (fun _ _ _ => true) Nat.succ stW3
        ⟨⟨"odom", 7⟩, pose0⟩ ⟨0,0,0⟩
      = (false,
          { stampGoals stW3 7 with
            global_plan := segW3,
            global_plan_segments := [],
            intermediate_goal_pose := ⟨segW3.header, segW3.poses.getLastD pose0⟩,
            plugins := Nat.succ stW3.plugins }) :=
  (isGoalReached_reached_cases (fun p => p.pose) (fun _ _ _ => true) Nat.succ
    stW3 ⟨⟨"odom", 7⟩, pose0⟩ ⟨0,0,0⟩ (by simp [stW3]) rfl).2 segW3 [] rfl

/-- Claim C9: if no goal has ever been set (empty goal frame id),
`isGoalReached` returns `false` with the state unchanged — for every
goal-checker predicate, so the external predicate is never consulted. -/
theorem isGoalReached_noGoal {PS : Type} (tfL : Pose2DStamped → Pose2D)
    (checker : Pose2D → Pose2D → Twist2D → Bool) (resetPS : PS → PS)
    (st : GoalState PS) (pose : Pose2DStamped) (velocity : Twist2D)
    (h : st.goal_pose.header.frame_id = "") :
    isGoalReached tfL checker resetPS st pose velocity = (false, st) := by
  simp [isGoalReached, h]

/-- Witness for `isGoalReached_noGoal` at a concrete state. -/
theorem isGoalReached_noGoal_w :
    isGoalReached (fun p => p.pose) (fun _ _ _ => true) Nat.succ stW9
        ⟨⟨"odom", 7⟩, pose0⟩ ⟨0,0,0⟩ = (false, stW9) :=
  isGoalReached_noGoal (fun p => p.pose) (fun _ _ _ => true) Nat.succ stW9
    ⟨⟨"odom", 7⟩, pose0⟩ ⟨0,0,0⟩ rfl

/-! ## The plan transformer claims -/

/-- Once at least one pose has been included, the window loop includes the
in-range run and then the first out-of-range pose, and stops. -/
lemma windowLoop_acc_ne (tfL : Pose2D → Pose2D) (robot : Pose2D) (sqT : ℚ) :
    ∀ (l acc : List Pose2D), acc ≠ [] →
    windowLoop tfL robot sqT l acc =
      acc ++ ((l.takeWhile fun p => ! outOfRange robot sqT p).map tfL) ++
        (((l.dropWhile fun p => ! outOfRange robot sqT p).take 1).map tfL) := by
  intro l
  induction l with
  | nil => intro acc hacc; simp [windowLoop]
  | cons p rest ih =>
    intro acc hacc
    by_cases h : sqT < getSquareDistance robot p
    · have hout : outOfRange robot sqT p = true := by
        simp [outOfRange, h]
      simp [windowLoop, if_pos h, List.isEmpty_eq_true, hacc, hout]
    · have hout : outOfRange robot sqT p = false := by
        simp [outOfRange, h]
      have := ih (acc ++ [tfL p]) (by simp)
      simp only [windowLoop, if_neg h, hout] at this ⊢
      simp [this, List.takeWhile_cons, List.dropWhile_cons, hout]

/-- The windowing pass of `transformGlobalPlan` computes exactly the
windowed sub-path described by the claim. -/
lemma windowLoop_spec (tfL : Pose2D → Pose2D) (robot : Pose2D) (sqT : ℚ) :
    ∀ l : List Pose2D,
    windowLoop tfL robot sqT l [] = specWindow tfL robot sqT l := by
  intro l
  induction l with
  | nil => rfl
  | cons p rest ih =>
    by_cases h : sqT < getSquareDistance robot p
    · have hout : outOfRange robot sqT p = true := by
        simp [outOfRange, h]
      simp only [windowLoop, if_pos h, List.isEmpty_nil, ih, specWindow,
        List.dropWhile_cons, hout, if_true]
    · have hout : outOfRange robot sqT p = false := by
        simp [outOfRange, h]
      have hrec := windowLoop_acc_ne tfL robot sqT rest [tfL p] (by simp)
      simp only [windowLoop, if_neg h, List.nil_append] at hrec ⊢
      rw [hrec]
      simp [specWindow, List.dropWhile_cons, hout, List.takeWhile_cons]

/-- Claim C6: for every non-empty stored plan, the transform window uses
`threshold = max(width, height) * resolution / 2` and squared distances to
the robot pose resolved in the plan's frame: leading poses beyond the
threshold are skipped, poses within it are included, and the walk stops at
the first pose beyond the threshold after at least one was included, with
that pose included in the output. -/
theorem windowing_matches_spec (tfL : Pose2D → Pose2D) (robot : Pose2D)
    (wd ht rs : ℚ) (plan : List Pose2D) (hne : plan ≠ []) :
    windowLoop tfL robot (distThreshold wd ht rs * distThreshold wd ht rs)
        plan []
      = specWindow tfL robot
          (distThreshold wd ht rs * distThreshold wd ht rs) plan :=
  windowLoop_spec tfL robot _ plan

/-- Witness for `windowing_matches_spec` on a concrete plan: threshold
`max 4 2 * 1 / 2 = 2`, so the far first pose is skipped, the next two are
in range, and the fourth (out of range) is included and stops the walk. -/
theorem windowing_matches_spec_w :
    windowLoop id ⟨0,0,0⟩ (distThreshold 4 2 1 * distThreshold 4 2 1)
        [⟨5,0,0⟩, ⟨1,0,0⟩, ⟨2,0,0⟩, ⟨10,0,0⟩, ⟨1,1,0⟩] []
      = specWindow id ⟨0,0,0⟩ (distThreshold 4 2 1 * distThreshold 4 2 1)
          [⟨5,0,0⟩, ⟨1,0,0⟩, ⟨2,0,0⟩, ⟨10,0,0⟩, ⟨1,1,0⟩] :=
  windowing_matches_spec id ⟨0,0,0⟩ 4 2 1
    [⟨5,0,0⟩, ⟨1,0,0⟩, ⟨2,0,0⟩, ⟨10,0,0⟩, ⟨1,1,0⟩] (by simp)

/-- The windowing pass never yields more poses than the stored plan has. -/
lemma windowLoop_length_le (tfL : Pose2D → Pose2D) (robot : Pose2D)
    (sqT : ℚ) :
    ∀ (l acc : List Pose2D),
    (windowLoop tfL robot sqT l acc).length ≤ acc.length + l.length := by
  intro l
  induction l with
  | nil => intro acc; simp [windowLoop]
  | cons p rest ih =>
    intro acc
    by_cases h : sqT < getSquareDistance robot p
    · cases hacc : acc.isEmpty
      · have hgoal : windowLoop tfL robot sqT (p :: rest) acc
            = acc ++ [tfL p] := by
          simp [windowLoop, h, hacc]
        rw [hgoal]
        simp only [List.length_append, List.length_cons, List.length_nil]
        omega
      · have hgoal : windowLoop tfL robot sqT (p :: rest) acc
            = windowLoop tfL robot sqT rest acc := by
          simp [windowLoop, h, hacc]
        rw [hgoal]
        have := ih acc
        simp only [List.length_cons]
        omega
    · have hgoal : windowLoop tfL robot sqT (p :: rest) acc
          = windowLoop tfL robot sqT rest (acc ++ [tfL p]) := by
        simp [windowLoop, h]
      rw [hgoal]
      have := ih (acc ++ [tfL p])
      simp only [List.length_append, List.length_cons, List.length_nil] at this
      simp only [List.length_cons]
      omega

/-- Dropping the head commutes with `drop`: `g.tail.drop k = g.drop (k+1)`. -/
lemma tail_drop_comm {α : Type} (g : List α) (k : Nat) :
    g.tail.drop k = g.drop (k + 1) := by
  cases g with
  | nil => simp
  | cons a g' => simp [List.drop_succ_cons]

/-- The prune loop removes the same number `k` of leading poses from the
transformed and the stored plan, and `k` never exceeds the transformed
plan's length. -/
lemma pruneLoop_drop (robotCm : Pose2D) (sqPrune : ℚ) :
    ∀ (t g : List Pose2D), ∃ k, k ≤ t.length ∧
    pruneLoop robotCm sqPrune t g = (t.drop k, g.drop k) := by
  intro t
  induction t with
  | nil => intro g; exact ⟨0, by simp, by simp [pruneLoop]⟩
  | cons w rest ih =>
    intro g
    by_cases h : getSquareDistance robotCm w < sqPrune
    · exact ⟨0, by simp, by simp [pruneLoop, if_pos h]⟩
    · obtain ⟨k, hk, heq⟩ := ih g.tail
      refine ⟨k + 1, by simp only [List.length_cons]; omega, ?_⟩
      simp only [pruneLoop, if_neg h, heq, List.drop_succ_cons,
        tail_drop_comm]

/-- Claim C7: the windowed transformed plan has at most as many poses as
the stored plan, and the lockstep prune erases the same number `k` of
leading poses from both, with `k` bounded by both lengths — every erase on
the stored plan is in bounds. -/
theorem prune_in_bounds (tfL : Pose2D → Pose2D) (robotPlan robotCm : Pose2D)
    (wd ht rs sqPrune : ℚ) (plan : List Pose2D) :
    (windowLoop tfL robotPlan
        (distThreshold wd ht rs * distThreshold wd ht rs) plan []).length
      ≤ plan.length ∧
    ∃ k,
      k ≤ (windowLoop tfL robotPlan
            (distThreshold wd ht rs * distThreshold wd ht rs) plan []).length ∧
      k ≤ plan.length ∧
      pruneLoop robotCm sqPrune
          (windowLoop tfL robotPlan
            (distThreshold wd ht rs * distThreshold wd ht rs) plan []) plan
        = ((windowLoop tfL robotPlan
              (distThreshold wd ht rs * distThreshold wd ht rs) plan []).drop k,
           plan.drop k) := by
  have hlen := windowLoop_length_le tfL robotPlan
    (distThreshold wd ht rs * distThreshold wd ht rs) plan []
  simp only [List.length_nil, Nat.zero_add] at hlen
  refine ⟨hlen, ?_⟩
  obtain ⟨k, hk, heq⟩ := pruneLoop_drop robotCm sqPrune
    (windowLoop tfL robotPlan
      (distThreshold wd ht rs * distThreshold wd ht rs) plan []) plan
  exact ⟨k, hk, le_trans hk hlen, heq⟩

/-- When every windowed pose is at least `prune_distance` away from the
robot, the prune loop removes them all and drops as many poses from the
stored plan. -/
lemma pruneLoop_all_pruned (robotCm : Pose2D) (sqPrune : ℚ) :
    ∀ (t g : List Pose2D),
    (∀ p ∈ t, ¬ getSquareDistance robotCm p < sqPrune) →
    pruneLoop robotCm sqPrune t g = ([], g.drop t.length) := by
  intro t
  induction t with
  | nil => intro g _; simp [pruneLoop]
  | cons w rest ih =>
    intro g hall
    have hw : ¬ getSquareDistance robotCm w < sqPrune := hall w (by simp)
    have := ih g.tail (fun p hp => hall p (by simp [hp]))
    simp only [pruneLoop, if_neg hw, this, tail_drop_comm,
      List.length_cons]

/-- Claim C10: with pruning enabled, when every windowed pose lies farther
than `prune_distance` from the robot, the plan transform raises the
empty-result planning error, but the poses erased during the prune pass
stay erased: the stored plan comes back shortened by the whole windowed
length — the failure is not atomic. -/
theorem prune_failure_not_atomic (tfL : Pose2D → Pose2D)
    (robotPlan robotCm : Pose2D) (wd ht rs prune_distance : ℚ)
    (plan : List Pose2D) (hne : plan ≠ [])
    (hall : ∀ p ∈ windowLoop tfL robotPlan
        (distThreshold wd ht rs * distThreshold wd ht rs) plan [],
      ¬ getSquareDistance robotCm p < prune_distance * prune_distance) :
    transformGlobalPlan tfL robotPlan robotCm wd ht rs true prune_distance
        plan
      = (.error "Resulting plan has 0 poses in it.",
         plan.drop (windowLoop tfL robotPlan
            (distThreshold wd ht rs * distThreshold wd ht rs) plan []).length) := by
  have hprune := pruneLoop_all_pruned robotCm
    (prune_distance * prune_distance)
    (windowLoop tfL robotPlan
      (distThreshold wd ht rs * distThreshold wd ht rs) plan [])
    plan hall
  simp [transformGlobalPlan, hne, hprune]

/-- Witness for `prune_failure_not_atomic`: a one-pose plan inside the
window (threshold 50) but outside `prune_distance = 1`; the pose is pruned
from the stored plan and the empty-result error is raised. -/
theorem prune_failure_not_atomic_w :
    transformGlobalPlan id ⟨0,0,0⟩ ⟨0,0,0⟩ 100 100 1 true 1 [⟨10,0,0⟩]
      = (.error "Resulting plan has 0 poses in it.",
         List.drop (windowLoop id ⟨0,0,0⟩
            (distThreshold 100 100 1 * distThreshold 100 100 1)
            [⟨10,0,0⟩] []).length [⟨10,0,0⟩]) := by
  refine prune_failure_not_atomic id ⟨0,0,0⟩ ⟨0,0,0⟩ 100 100 1 1
    [⟨10,0,0⟩] (by simp) ?_
  have hw : windowLoop id ⟨0,0,0⟩
      (distThreshold 100 100 1 * distThreshold 100 100 1) [⟨10,0,0⟩] []
      = [⟨10,0,0⟩] := by
    norm_num [windowLoop, distThreshold, getSquareDistance]
  rw [hw]
  intro p hp
  simp only [List.mem_singleton] at hp
  subst hp
  norm_num [getSquareDistance]

/-! ## The scoring claims -/

/-- With short-circuit disabled, a legal scoring run computes exactly the
spec's sum of `raw_score*scale` over the non-zero-scale critics. -/
lemma scoreGo_false_total {T : Type} (t : T) (b : ℚ) :
    ∀ (cs : List (Critic T)) (acc s : TrajectoryScore T),
    scoreTrajectoryGo false b t cs acc = .ok s →
    specTotalSum t cs acc.total = .ok s.total := by
  intro cs
  induction cs with
  | nil =>
    intro acc s h
    simp only [scoreTrajectoryGo, Except.ok.injEq] at h
    rw [h]
    rfl
  | cons c cs ih =>
    intro acc s h
    by_cases hz : c.scale = 0
    · simp only [scoreTrajectoryGo, if_pos hz] at h
      simpa [specTotalSum, hz] using
        ih { acc with scores := acc.scores ++ [⟨c.name, c.scale, 0⟩] } s h
    · cases hsc : c.score t with
      | error e =>
        simp only [scoreTrajectoryGo, if_neg hz, hsc] at h
        exact Except.noConfusion h
      | ok r =>
        simp only [scoreTrajectoryGo, if_neg hz, hsc, Bool.false_eq_true,
          false_and, if_false] at h
        have := ih { acc with
            scores := acc.scores ++ [⟨c.name, c.scale, r⟩],
            total := acc.total + r * c.scale } s h
        simpa [specTotalSum, hz, hsc] using this

/-- Under non-negative scales and raw scores, the accumulated total never
decreases along the critic chain (with or without short-circuit). -/
lemma scoreGo_total_mono {T : Type} (sc : Bool) (b : ℚ) (t : T) :
    ∀ (cs : List (Critic T)) (acc s : TrajectoryScore T),
    (∀ c ∈ cs, 0 ≤ c.scale) →
    (∀ c ∈ cs, ∀ r, c.score t = .ok r → 0 ≤ r) →
    scoreTrajectoryGo sc b t cs acc = .ok s → acc.total ≤ s.total := by
  intro cs
  induction cs with
  | nil =>
    intro acc s _ _ h
    simp only [scoreTrajectoryGo, Except.ok.injEq] at h
    rw [h]
  | cons c cs ih =>
    intro acc s hscale hraw h
    by_cases hz : c.scale = 0
    · simp only [scoreTrajectoryGo, if_pos hz] at h
      exact ih { acc with scores := acc.scores ++ [⟨c.name, c.scale, 0⟩] } s
        (fun c' hc' => hscale c' (by simp [hc']))
        (fun c' hc' => hraw c' (by simp [hc'])) h
    · cases hsc : c.score t with
      | error e =>
        simp only [scoreTrajectoryGo, if_neg hz, hsc] at h
        exact Except.noConfusion h
      | ok r =>
        have hr : 0 ≤ r := hraw c (by simp) r hsc
        have hs : 0 ≤ c.scale := hscale c (by simp)
        have hstep : acc.total ≤ acc.total + r * c.scale := by
          have : 0 ≤ r * c.scale := mul_nonneg hr hs
          linarith
        simp only [scoreTrajectoryGo, if_neg hz, hsc] at h
        by_cases hbrk : (sc = true) ∧ 0 < b ∧
            b < acc.total + r * c.scale
        · rw [if_pos hbrk] at h
          simp only [Except.ok.injEq] at h
          rw [← h]
          exact hstep
        · rw [if_neg hbrk] at h
          have := ih { acc with
              scores := acc.scores ++ [⟨c.name, c.scale, r⟩],
              total := acc.total + r * c.scale } s
            (fun c' hc' => hscale c' (by simp [hc']))
            (fun c' hc' => hraw c' (by simp [hc'])) h
          simp only at this
          linarith

/-- A scoring run that rejects the candidate rejects it identically
without short-circuit and with any best score. -/
lemma scoreGo_error_stable {T : Type} (sc : Bool) (b b' : ℚ) (t : T) :
    ∀ (cs : List (Critic T)) (acc : TrajectoryScore T) (e : String × String),
    scoreTrajectoryGo sc b t cs acc = .error e →
    scoreTrajectoryGo false b' t cs acc = .error e := by
  intro cs
  induction cs with
  | nil => intro acc e h; simp [scoreTrajectoryGo] at h
  | cons c cs ih =>
    intro acc e h
    by_cases hz : c.scale = 0
    · simp only [scoreTrajectoryGo, if_pos hz] at h ⊢
      exact ih _ e h
    · cases hsc : c.score t with
      | error e' =>
        simp only [scoreTrajectoryGo, if_neg hz, hsc] at h ⊢
        exact h
      | ok r =>
        simp only [scoreTrajectoryGo, if_neg hz, hsc] at h ⊢
        by_cases hbrk : (sc = true) ∧ 0 < b ∧
            b < acc.total + r * c.scale
        · rw [if_pos hbrk] at h
          exact Except.noConfusion h
        · rw [if_neg hbrk] at h
          simp only [Bool.false_eq_true, false_and, if_false]
          exact ih _ e h

/-- Without short-circuit the best-score argument is never consulted. -/
lemma scoreGo_false_bIndep {T : Type} (b b' : ℚ) (t : T) :
    ∀ (cs : List (Critic T)) (acc : TrajectoryScore T),
    scoreTrajectoryGo false b t cs acc = scoreTrajectoryGo false b' t cs acc := by
  intro cs
  induction cs with
  | nil => intro acc; rfl
  | cons c cs ih =>
    intro acc
    by_cases hz : c.scale = 0
    · simp only [scoreTrajectoryGo, if_pos hz]
      exact ih _
    · cases hsc : c.score t with
      | error e => simp only [scoreTrajectoryGo, if_neg hz, hsc]
      | ok r =>
        simp only [scoreTrajectoryGo, if_neg hz, hsc, Bool.false_eq_true,
          false_and, if_false]
        exact ih _

/-- With a non-positive best score the short-circuit break can never fire,
so scoring behaves as with short-circuit disabled. -/
lemma scoreGo_nonpos_b {T : Type} (sc : Bool) (b : ℚ) (t : T) (hb : b ≤ 0) :
    ∀ (cs : List (Critic T)) (acc : TrajectoryScore T),
    scoreTrajectoryGo sc b t cs acc = scoreTrajectoryGo false b t cs acc := by
  intro cs
  induction cs with
  | nil => intro acc; rfl
  | cons c cs ih =>
    intro acc
    by_cases hz : c.scale = 0
    · simp only [scoreTrajectoryGo, if_pos hz]
      exact ih _
    · cases hsc : c.score t with
      | error e => simp only [scoreTrajectoryGo, if_neg hz, hsc]
      | ok r =>
        have hnot : ¬ ((sc = true) ∧ 0 < b ∧
            b < acc.total + r * c.scale) := by
          rintro ⟨-, hb', -⟩
          linarith
        simp only [scoreTrajectoryGo, if_neg hz, hsc, if_neg hnot,
          Bool.false_eq_true, false_and, if_false]
        exact ih _

/-- Under non-negative contributions, scoring with short-circuit either
agrees with full scoring, or stops early on a candidate already provably
worse than the (positive) current best, whose full total would be at least
as large. -/
lemma scoreGo_sc_cases {T : Type} (b : ℚ) (t : T) :
    ∀ (cs : List (Critic T)) (acc : TrajectoryScore T),
    (∀ c ∈ cs, 0 ≤ c.scale) →
    (∀ c ∈ cs, ∀ r, c.score t = .ok r → 0 ≤ r) →
    scoreTrajectoryGo true b t cs acc = scoreTrajectoryGo false b t cs acc ∨
    (0 < b ∧ ∃ s', scoreTrajectoryGo true b t cs acc = .ok s' ∧
      b < s'.total ∧
      ∀ sf, scoreTrajectoryGo false b t cs acc = .ok sf →
        s'.total ≤ sf.total) := by
  intro cs
  induction cs with
  | nil => intro acc _ _; exact .inl rfl
  | cons c cs ih =>
    intro acc hscale hraw
    by_cases hz : c.scale = 0
    · simp only [scoreTrajectoryGo, if_pos hz]
      exact ih _ (fun c' hc' => hscale c' (by simp [hc']))
        (fun c' hc' => hraw c' (by simp [hc']))
    · cases hsc : c.score t with
      | error e =>
        exact .inl (by simp only [scoreTrajectoryGo, if_neg hz, hsc])
      | ok r =>
        by_cases hbrk : 0 < b ∧ b < acc.total + r * c.scale
        · refine .inr ⟨hbrk.1, ?_⟩
          refine ⟨{ acc with
              scores := acc.scores ++ [⟨c.name, c.scale, r⟩],
              total := acc.total + r * c.scale }, ?_, hbrk.2, ?_⟩
          · simp only [scoreTrajectoryGo, if_neg hz, hsc, true_and]
            rw [if_pos hbrk]
          · intro sf hsf
            simp only [scoreTrajectoryGo, if_neg hz, hsc,
              Bool.false_eq_true, false_and, if_false] at hsf
            exact scoreGo_total_mono false b t cs _ sf
              (fun c' hc' => hscale c' (by simp [hc']))
              (fun c' hc' => hraw c' (by simp [hc'])) hsf
        · simp only [scoreTrajectoryGo, if_neg hz, hsc, true_and,
            if_neg hbrk, Bool.false_eq_true, false_and, if_false]
          exact ih _ (fun c' hc' => hscale c' (by simp [hc']))
            (fun c' hc' => hraw c' (by simp [hc']))

/-- Under non-negative contributions the candidate loop tracks the same
best score with short-circuit as without, whatever the worst/tracker
accumulators. -/
lemma coreLoop_best_eq {T : Type} (critics : List (Critic T))
    (hscale : ∀ c ∈ critics, 0 ≤ c.scale)
    (hraw : ∀ c ∈ critics, ∀ t r, c.score t = .ok r → 0 ≤ r) :
    ∀ (trajs : List T) (B W W' : TrajectoryScore T)
      (tk tk' : IllegalTrajectoryTracker),
    (coreLoop true critics trajs B W tk).1
      = (coreLoop false critics trajs B W' tk').1 := by
  intro trajs
  induction trajs with
  | nil => intro B W W' tk tk'; rfl
  | cons t rest ih =>
    intro B W W' tk tk'
    rcases scoreGo_sc_cases B.total t critics ⟨t, [], 0⟩ hscale
        (fun c hc r hr => hraw c hc t r hr) with heq | ⟨hb, s', hok, hgt, hmono⟩
    · cases hres : scoreTrajectory false critics t B.total with
      | ok s =>
        have htrue : scoreTrajectory true critics t B.total = .ok s := by
          rw [scoreTrajectory, heq]
          exact hres
        simp only [coreLoop, htrue, hres]
        exact ih _ _ _ _ _
      | error e =>
        have htrue : scoreTrajectory true critics t B.total = .error e := by
          rw [scoreTrajectory, heq]
          exact hres
        simp only [coreLoop, htrue, hres]
        exact ih _ _ _ _ _
    · have hBkeep : ¬ (B.total < 0 ∨ s'.total < B.total) := by
        push_neg
        constructor <;> linarith
      have htrue : scoreTrajectory true critics t B.total = .ok s' := hok
      cases hres : scoreTrajectory false critics t B.total with
      | ok sf =>
        have hf : s'.total ≤ sf.total := hmono sf hres
        have hBkeepf : ¬ (B.total < 0 ∨ sf.total < B.total) := by
          push_neg
          constructor <;> linarith
        simp only [coreLoop, htrue, hres, if_neg hBkeep, if_neg hBkeepf]
        exact ih _ _ _ _ _
      | error e =>
        simp only [coreLoop, htrue, hres, if_neg hBkeep]
        exact ih _ _ _ _ _

/-- When the current best is still the sentinel and every remaining
candidate is rejected by full scoring, the loop leaves the best unchanged
and records each candidate as illegal. -/
lemma coreLoop_all_illegal {T : Type} (sc : Bool) (critics : List (Critic T)) :
    ∀ (trajs : List T) (B W : TrajectoryScore T)
      (tk : IllegalTrajectoryTracker), B.total < 0 →
    (∀ t ∈ trajs, isOkE (scoreTrajectory false critics t 0) = false) →
    (coreLoop sc critics trajs B W tk).1 = B ∧
    (coreLoop sc critics trajs B W tk).2.2.seen_count
      = tk.seen_count + trajs.length ∧
    (coreLoop sc critics trajs B W tk).2.2.illegal_count
      = tk.illegal_count + trajs.length := by
  intro trajs
  induction trajs with
  | nil => intro B W tk _ _; exact ⟨rfl, rfl, rfl⟩
  | cons t rest ih =>
    intro B W tk hB hfail
    obtain ⟨e, he⟩ : ∃ e, scoreTrajectory false critics t 0 = .error e := by
      cases hres : scoreTrajectory false critics t 0 with
      | ok s =>
        have := hfail t (by simp)
        rw [hres] at this
        simp [isOkE] at this
      | error e => exact ⟨e, rfl⟩
    have hsc : scoreTrajectory sc critics t B.total = .error e := by
      rw [scoreTrajectory,
        scoreGo_nonpos_b sc B.total t (le_of_lt hB) critics ⟨t, [], 0⟩,
        scoreGo_false_bIndep B.total 0 t critics ⟨t, [], 0⟩]
      exact he
    simp only [coreLoop, hsc]
    obtain ⟨h1, h2, h3⟩ := ih B W (tk.addIllegalTrajectory e) hB
      (fun t' ht' => hfail t' (by simp [ht']))
    refine ⟨h1, ?_, ?_⟩
    · rw [h2]
      simp only [IllegalTrajectoryTracker.addIllegalTrajectory,
        List.length_cons]
      omega
    · rw [h3]
      simp only [IllegalTrajectoryTracker.addIllegalTrajectory,
        List.length_cons]
      omega

/-- Under non-negative contributions, once some processed or pending
candidate is legal the loop's final best total is non-negative. -/
lemma coreLoop_legal_nonneg {T : Type} (sc : Bool) (critics : List (Critic T))
    (hscale : ∀ c ∈ critics, 0 ≤ c.scale)
    (hraw : ∀ c ∈ critics, ∀ t r, c.score t = .ok r → 0 ≤ r) :
    ∀ (trajs : List T) (B W : TrajectoryScore T)
      (tk : IllegalTrajectoryTracker),
    (0 ≤ B.total ∨ ∃ t ∈ trajs, isOkE (scoreTrajectory false critics t 0) = true) →
    0 ≤ (coreLoop sc critics trajs B W tk).1.total := by
  intro trajs
  induction trajs with
  | nil =>
    intro B W tk hyp
    rcases hyp with hB | ⟨t, ht, _⟩
    · exact hB
    · simp at ht
  | cons t rest ih =>
    intro B W tk hyp
    cases hres : scoreTrajectory sc critics t B.total with
    | ok s =>
      have hs : 0 ≤ s.total := by
        have := scoreGo_total_mono sc B.total t critics ⟨t, [], 0⟩ s hscale
          (fun c hc r hr => hraw c hc t r hr) hres
        simpa using this
      simp only [coreLoop, hres]
      by_cases hupd : B.total < 0 ∨ s.total < B.total
      · rw [if_pos hupd]
        exact ih _ _ _ (.inl hs)
      · rw [if_neg hupd]
        push_neg at hupd
        exact ih _ _ _ (.inl hupd.1)
    | error e =>
      simp only [coreLoop, hres]
      rcases hyp with hB | ⟨t', ht', hok⟩
      · exact ih _ _ _ (.inl hB)
      · rcases List.mem_cons.mp ht' with heq | hmem
        · subst heq
          have hfe : scoreTrajectory false critics t' 0 = .error e := by
            rw [scoreTrajectory]
            exact scoreGo_error_stable sc B.total 0 t' critics ⟨t', [], 0⟩ e hres
          rw [hfe] at hok
          simp [isOkE] at hok
        · exact ih _ _ _ (.inr ⟨t', hmem, hok⟩)

/-- Claim C1: assuming every critic's raw score and scale are
non-negative, the evaluation loop selects the same best candidate (the
same returned `TrajectoryScore`, and failure exactly when the other
fails) with short-circuiting enabled as with it disabled; and with
short-circuit disabled each legally scored candidate's total equals the
spec's sum of `raw_score*scale` over the critics with non-zero scale, in
critic-list order. -/
theorem scoring_shortCircuit_equiv {T : Type} [Inhabited T]
    (critics : List (Critic T)) (trajs : List T)
    (hscale : ∀ c ∈ critics, 0 ≤ c.scale)
    (hraw : ∀ c ∈ critics, ∀ t r, c.score t = .ok r → 0 ≤ r) :
    (coreScoringAlgorithm true critics trajs).toOption
      = (coreScoringAlgorithm false critics trajs).toOption
    ∧ ∀ (t : T) (b : ℚ) (s : TrajectoryScore T),
        scoreTrajectory false critics t b = .ok s →
        specTotalSum t critics 0 = .ok s.total := by
  constructor
  · have hbest := coreLoop_best_eq critics hscale hraw trajs
      initScore initScore initScore ⟨0, 0, []⟩ ⟨0, 0, []⟩
    simp only [coreScoringAlgorithm]
    rw [hbest]
    by_cases hneg :
        (coreLoop false critics trajs initScore initScore ⟨0, 0, []⟩).1.total < 0
    · simp only [if_pos hneg, Except.toOption]
    · simp only [if_neg hneg]
  · intro t b s h
    have := scoreGo_false_total t b critics ⟨t, [], 0⟩ s h
    simpa using this

/-- Witness for `scoring_shortCircuit_equiv` at concrete critics and two
candidates. -/
theorem scoring_shortCircuit_equiv_w :
    (coreScoringAlgorithm true wCritics [(), ()]).toOption
      = (coreScoringAlgorithm false wCritics [(), ()]).toOption :=
  (scoring_shortCircuit_equiv wCritics [(), ()]
    (by
      intro c hc
      simp only [wCritics, List.mem_cons, List.mem_singleton,
        List.not_mem_nil, or_false] at hc
      rcases hc with h | h <;> rw [h] <;> norm_num)
    (by
      intro c hc t r h
      simp only [wCritics, List.mem_cons, List.mem_singleton,
        List.not_mem_nil, or_false] at hc
      rcases hc with hc | hc <;> rw [hc] at h <;>
        simp only [Except.ok.injEq] at h <;> rw [← h] <;> norm_num)).1

/-- Counterexample to claim C4 as stated: scoring the single candidate
with `negCritic` yields a legal `TrajectoryScore` with `total = -5 < 0`,
and the loop installs it as best (the overwrite also fires against the
`total = -1` sentinel, not only on a strictly-better comparison against a
non-sentinel value; the non-empty score list shows the installed best is
a real candidate, not the sentinel). -/
theorem negative_best_installed_cex :
    (coreLoop false [negCritic] [()] initScore initScore ⟨0, 0, []⟩).1
      = ⟨(), [⟨"neg", 1, -5⟩], -5⟩
    ∧ (coreLoop false [negCritic] [()] initScore initScore ⟨0, 0, []⟩).1.total < 0
    ∧ (coreLoop false [negCritic] [()] initScore initScore ⟨0, 0, []⟩).1.scores ≠ [] := by
  refine ⟨?_, ?_, ?_⟩ <;>
    norm_num [coreLoop, scoreTrajectory, scoreTrajectoryGo, initScore,
      negCritic, IllegalTrajectoryTracker.addLegalTrajectory]

/-- Claim C4 as amended: while a negative-total score can be installed as
best mid-loop (see the counterexample), the evaluation cycle never
*returns* a best with `total < 0` — when the final best total is negative
it raises the no-legal-trajectories error instead. -/
theorem returned_best_nonneg {T : Type} [Inhabited T] (sc : Bool)
    (critics : List (Critic T)) (trajs : List T) (s : TrajectoryScore T)
    (h : coreScoringAlgorithm sc critics trajs = .ok s) :
    0 ≤ s.total := by
  simp only [coreScoringAlgorithm] at h
  by_cases hneg :
      (coreLoop sc critics trajs initScore initScore ⟨0, 0, []⟩).1.total < 0
  · rw [if_pos hneg] at h
    exact Except.noConfusion h
  · rw [if_neg hneg] at h
    simp only [Except.ok.injEq] at h
    rw [← h]
    linarith

/-- Witness for `returned_best_nonneg`: with no critics the single
candidate scores `0` and is returned. -/
theorem returned_best_nonneg_w :
    (0 : ℚ) ≤ (TrajectoryScore.mk () [] 0).total :=
  returned_best_nonneg false ([] : List (Critic Unit)) [()] ⟨(), [], 0⟩
    (by norm_num [coreScoringAlgorithm, coreLoop, scoreTrajectory,
      scoreTrajectoryGo, initScore, IllegalTrajectoryTracker.addLegalTrajectory])

/-- Counterexample to claim C5 as stated: with `negCritic` the single
candidate is scored legally (the scorer returns `.ok`, and the carried
tracker reports one seen, zero illegal trajectories), yet the cycle fails
with the no-legal-trajectories error instead of returning a best. -/
theorem legal_candidate_still_fails_cex :
    isOkE (scoreTrajectory false [negCritic] () 0) = true
    ∧ coreScoringAlgorithm false [negCritic] [()]
        = .error ⟨1, 0, []⟩ := by
  constructor <;>
    norm_num [coreScoringAlgorithm, coreLoop, scoreTrajectory,
      scoreTrajectoryGo, initScore, isOkE, negCritic,
      IllegalTrajectoryTracker.addLegalTrajectory]

/-- Claim C5 as amended: under non-negative critic scales and raw scores,
one evaluation cycle fails exactly when no candidate can be scored
legally, and the error then carries the tracker recording every candidate
as illegal; whenever at least one candidate is legal the cycle returns a
best score. -/
theorem coreScoring_fails_iff_noLegal {T : Type} [Inhabited T] (sc : Bool)
    (critics : List (Critic T)) (trajs : List T)
    (hscale : ∀ c ∈ critics, 0 ≤ c.scale)
    (hraw : ∀ c ∈ critics, ∀ t r, c.score t = .ok r → 0 ≤ r) :
    ((isOkE (coreScoringAlgorithm sc critics trajs) = false) ↔
      (∀ t ∈ trajs, isOkE (scoreTrajectory false critics t 0) = false))
    ∧ (∀ tk, coreScoringAlgorithm sc critics trajs = .error tk →
        tk.seen_count = trajs.length ∧ tk.illegal_count = trajs.length) := by
  have hfwd : isOkE (coreScoringAlgorithm sc critics trajs) = false →
      ∀ t ∈ trajs, isOkE (scoreTrajectory false critics t 0) = false := by
    intro hfail t ht
    by_contra hok
    have hok' : isOkE (scoreTrajectory false critics t 0) = true := by
      cases hval : isOkE (scoreTrajectory false critics t 0)
      · exact absurd hval hok
      · rfl
    have hnn := coreLoop_legal_nonneg sc critics hscale hraw trajs
      initScore initScore ⟨0, 0, []⟩ (.inr ⟨t, ht, hok'⟩)
    simp only [coreScoringAlgorithm] at hfail
    rw [if_neg (by linarith)] at hfail
    simp [isOkE] at hfail
  have hbwd : (∀ t ∈ trajs, isOkE (scoreTrajectory false critics t 0) = false) →
      isOkE (coreScoringAlgorithm sc critics trajs) = false := by
    intro hall
    obtain ⟨h1, -, -⟩ := coreLoop_all_illegal sc critics trajs
      initScore initScore ⟨0, 0, []⟩ (by norm_num [initScore]) hall
    simp only [coreScoringAlgorithm]
    rw [if_pos (by rw [h1]; norm_num [initScore])]
    rfl
  refine ⟨⟨hfwd, hbwd⟩, ?_⟩
  intro tk htk
  have hfail : isOkE (coreScoringAlgorithm sc critics trajs) = false := by
    rw [htk]; rfl
  have hall := hfwd hfail
  obtain ⟨h1, h2, h3⟩ := coreLoop_all_illegal sc critics trajs
    initScore initScore ⟨0, 0, []⟩ (by norm_num [initScore]) hall
  simp only [coreScoringAlgorithm] at htk
  rw [if_pos (by rw [h1]; norm_num [initScore])] at htk
  simp only [Except.error.injEq] at htk
  rw [← htk]
  constructor
  · rw [h2]; simp
  · rw [h3]; simp

/-- Witness for `coreScoring_fails_iff_noLegal`: one always-rejecting
critic makes the cycle fail. -/
theorem coreScoring_fails_iff_noLegal_w :
    isOkE (coreScoringAlgorithm false [rejCritic] [()]) = false :=
  (coreScoring_fails_iff_noLegal false [rejCritic] [()]
    (by
      intro c hc
      simp only [List.mem_singleton] at hc
      rw [hc]; norm_num [rejCritic])
    (by
      intro c hc t r h
      simp only [List.mem_singleton] at hc
      rw [hc] at h
      exact Except.noConfusion h)).1.mpr
    (by
      intro t ht
      norm_num [scoreTrajectory, scoreTrajectoryGo, rejCritic, isOkE])

end DWB
